import Mathlib

/-!
Verification development for the reddit-sentiments repository.

The core under study is `app/collector.py` (ticker extraction and the two
ingestion producers), `app/tasks.py` (the sentiment consumer loop and the
classifier wrapper) and `app/api.py` (the on-demand collection trigger and
the completion waiter).

Strings are modelled as `List Char` (ASCII data, which is the only data the
word lists and regexes of the source distinguish).  Python floats are
modelled as exact rationals (`ℚ`); decimal literals of the source map to the
corresponding rationals.  Fallible effects (Redis reads, DB writes, the
FinBERT call) are modelled as `Except Unit` oracles passed explicitly.
-/

set_option maxRecDepth 100000

/-- Strings of the Python source, modelled as lists of characters. -/
abbrev Str := List Char

/-- `[A-Z]` of the source regexes. -/
def isUpperAZ (c : Char) : Bool := 65 ≤ c.toNat && c.toNat ≤ 90

/-- `[a-z]` (used by `str.upper` / `str.lower` on ASCII data). -/
def isLowerAZ (c : Char) : Bool := 97 ≤ c.toNat && c.toNat ≤ 122

/-- `\w` of Python's `re` on ASCII data: `[A-Za-z0-9_]`. -/
def isWordChar (c : Char) : Bool :=
  isUpperAZ c || isLowerAZ c || (48 ≤ c.toNat && c.toNat ≤ 57) || c.toNat == 95

/-- `\s` of Python's `re` on ASCII data: space, tab, newline, CR, VT, FF. -/
def isSpaceChar (c : Char) : Bool :=
  c.toNat == 32 || (9 ≤ c.toNat && c.toNat ≤ 13)

/-- One character of Python's `str.upper()` (ASCII part). -/
def upChar (c : Char) : Char :=
  if 97 ≤ c.toNat && c.toNat ≤ 122 then Char.ofNat (c.toNat - 32) else c

/-- One character of Python's `str.lower()` (ASCII part). -/
def lowChar (c : Char) : Char :=
  if 65 ≤ c.toNat && c.toNat ≤ 90 then Char.ofNat (c.toNat + 32) else c

/-- `text.upper()` of the source (ASCII part). -/
def pyUpper (s : Str) : Str := s.map upChar

/-- `text.lower()` of the source (ASCII part). -/
def pyLower (s : Str) : Str := s.map lowChar

/-- Word boundary (`\b`) test against the text that FOLLOWS a match: it
holds at end of text or when the next character is not a word character. -/
def bAfterB : Str → Bool
  | [] => true
  | c :: _ => !isWordChar c

/-- `w` is a leading segment of `s` (used for substring and keyword tests). -/
def startsSeg : Str → Str → Bool
  | [], _ => true
  | _ :: _, [] => false
  | a :: w, b :: s => a == b && startsSeg w s

/-- Python's substring test `w in s`. -/
def occursIn : Str → Str → Bool
  | w, [] => startsSeg w []
  | w, s@(_ :: tail) => startsSeg w s || occursIn w tail

/-- Python's `s.split(",")`, accumulator form. -/
def splitCommaAux (cur : Str) : Str → List Str
  | [] => [cur.reverse]
  | c :: rest => if c = ',' then cur.reverse :: splitCommaAux [] rest
                 else splitCommaAux (c :: cur) rest

/-- Python's `s.split(",")`. -/
def splitComma (s : Str) : List Str := splitCommaAux [] s

/-- Python's `",".join(parts)`. -/
def joinComma : List Str → Str
  | [] => []
  | [t] => t
  | t :: ts => t ++ ',' :: joinComma ts

/-- `COMMON_WORDS` of `app/collector.py`, transcribed verbatim (the Python
set literal repeats some words across its thematic groups; repetition does
not change membership). -/
def COMMON_WORDS : List String := [
  "IS", "IT", "TO", "ON", "IN", "OR", "OF", "AT", "BY", "UP", "NO", "SO", "GO", "DO", "IF", "BE", "WE", "ME", "MY", "HE", "AN", "AS",
  "THE", "AND", "FOR", "ARE", "BUT", "NOT", "YOU", "ALL", "CAN", "HER", "WAS", "ONE", "OUR", "OUT", "DAY", "GET", "HAS", "HIM",
  "OLD", "SEE", "TWO", "HOW", "ITS", "NOW", "NEW", "MAY", "WAY", "WHO", "BOY", "USE", "MAN", "SHE", "AIR", "TOP", "LOW", "END",
  "BIG", "SET", "OWN", "PUT", "SAY", "TRY", "WHY", "LET", "BAD", "TOO", "RUN", "EYE", "FAR", "OFF", "ADD", "LOT", "BAG",
  "THIS", "THAT", "WITH", "HAVE", "THEY", "WILL", "BEEN", "WERE", "SAID", "EACH", "ONLY", "ALSO", "BACK", "CALL", "CAME", "DONE",
  "EVEN", "FIND", "GOOD", "HELP", "JUST", "KEEP", "KNOW", "LAST", "LEFT", "LIKE", "LIVE", "LOOK", "MADE", "MAKE", "MANY", "MOST",
  "MOVE", "MUST", "NAME", "NEED", "NEXT", "OPEN", "OVER", "PART", "PLAY", "REAL", "SAME", "SEEM", "SHOW", "TAKE", "TELL", "THAN",
  "THEM", "TURN", "VERY", "WANT", "WELL", "WENT", "WHAT", "WHEN", "WHERE", "WORK", "YEAR", "YOUR", "FROM", "WOULD", "THERE",
  "COULD", "OTHER", "AFTER", "FIRST", "NEVER", "THESE", "THINK", "WHERE", "BEING", "EVERY", "GREAT", "MIGHT", "SHALL", "STILL",
  "THOSE", "UNDER", "WHILE", "SHOULD", "AROUND", "BEFORE", "DURING", "FOLLOW", "HAVING", "PUBLIC", "SCHOOL", "SECOND", "SYSTEM",
  "CASH", "DEBT", "LOAN", "RATE", "FEES", "FUND", "LOSS", "GAIN", "RISK", "HIGH", "BULL", "BEAR", "LONG", "PUTS",
  "BANK", "CARD", "PLAN", "SAVE", "SELL", "HOLD", "DOWN", "WEEK", "YEAR", "TIME", "DAYS", "MUCH", "LESS", "MORE",
  "COST", "PAID", "BILL", "RENT", "FOOD", "HOME", "LIFE", "WORK", "JOBS", "PAYS", "NICE", "BEST", "EASY", "HARD",
  "PRICE", "VALUE", "WORTH", "TOTAL", "POINT", "SHARE", "STOCK", "TRADE", "CALLS", "SHORT", "MARKET", "MONEY",
  "DOING", "WELL", "GOOD", "POOR", "BEEN", "ALSO", "THEM", "INTO", "OVER", "ONLY", "HERE", "JUST", "SOME",
  "AI", "VS", "TECH", "SECTOR", "AREA", "WALL", "PLACE", "TEAM", "LATE", "LATER", "EARLY", "FAST", "SLOW",
  "BOTH", "TODAY", "EACH", "MOST", "MANY", "SAME", "OPEN", "BACK", "NEAR", "NEXT", "SUCH", "REAL",
  "ABOVE", "BELOW", "ABOUT", "OFTEN", "SEEMS", "GOING", "FEELS", "MAKES", "LOOKS", "COMES", "TAKES",
  "YEARS", "MONTH", "HOURS", "DAILY", "THEIR", "WHICH", "THESE", "THOSE", "WEIRD", "WISE", "CLEAR",
  "SPACE", "LEVEL", "RIGHT", "PEACE", "TRUTH", "LEARN", "FEELS", "TRULY", "STAGE", "FRESH", "SMALL",
  "HUGE", "MICRO", "MACRO", "BASED", "GIVEN", "ENDED", "HOLDS", "PARTS", "DEALS", "NOTES", "TOOLS"]

/-- Membership test `t in COMMON_WORDS` on a char-list token. -/
def memCW (t : Str) : Bool := COMMON_WORDS.any (fun w => w.toList == t)

/-- The inner `english_words` set of the no-context standalone branch
(`app/collector.py` line 94), transcribed verbatim. -/
def ENGLISH_WORDS : List String :=
  ["FROM", "THAT", "THIS", "WITH", "WHAT", "WHEN", "WHERE", "THEY", "THEM", "WILL", "BEEN", "WERE"]

/-- Membership test `t in english_words`. -/
def memEW (t : Str) : Bool := ENGLISH_WORDS.any (fun w => w.toList == t)

/-- The list the broad financial-context check iterates over
(`financial_context_found` in `extract_tickers`), transcribed verbatim. -/
def CONTEXT_WORDS : List String := [
  "STOCK", "STOCKS", "SHARE", "SHARES", "TICKER", "SYMBOL", "NYSE", "NASDAQ",
  "TRADING", "TRADE", "PORTFOLIO", "INVESTMENT", "INVEST", "EQUITY", "SECURITIES",
  "EARNINGS", "DIVIDEND", "PRICE", "TARGET", "ANALYST", "BULL", "BEAR",
  "MARKET", "MARKETS", "S&P", "DOW", "RUSSELL", "INDEX", "FUND", "ETF",
  "BUY", "SELL", "HOLD", "BOUGHT", "SOLD", "HOLDING", "BUYING", "SELLING",
  "CALL", "CALLS", "PUT", "PUTS", "OPTION", "OPTIONS", "FUTURES",
  "REVENUE", "PROFIT", "LOSS", "GAIN", "GROWTH", "VALUATION",
  "PERFORMANCE", "INCLUDES", "ALLOCATION", "ANALYSIS", "THESIS",
  "REPORT", "UP", "DOWN", "VS", "SECTOR", "AI", "TECH", "CRYPTO", "COIN"]

/-- `financial_context_found`: Python's `any(word in text_upper for word in [...])`,
a SUBSTRING containment test on the uppercased whole text, not a token match. -/
def hasFinCtx (u : Str) : Bool := CONTEXT_WORDS.any (fun w => occursIn w.toList u)

/-!
### The four extraction strategies of `extract_tickers`

Each Python regex `findall` over the uppercased text is embedded as a direct
left-to-right scan.  The analysis of each pattern against `re` semantics:

* `TICKER_RE_DOLLAR = \$([A-Z]{1,5})\b`: at a `$`, the greedy `[A-Z]{1,5}`
  with the trailing `\b` matches exactly when the maximal run of uppercase
  letters after the `$` has length 1..5 and is followed by end-of-text or a
  non-word character (every shorter greedy backtrack puts `\b` between two
  letters and fails).  `findall` resumes after the consumed `$`+run; since a
  consumed region contains no further `$`, resuming one character later
  instead (as the scan below does) yields the same match set.

* `\b([A-Z]{2,5})\b` (standalone): a match is exactly a maximal uppercase
  run of length 2..5 whose neighbours on both sides are absent or non-word.
  No match can begin inside or directly after a consumed run (the preceding
  character is a letter, so the leading `\b` fails), so advancing one
  character after a match again visits the same match set.

Both scans below therefore advance one character at a time, which keeps them
structurally recursive.  The two middle strategies consume their keyword,
which is observable (`findall("AB CALL PUTS")` yields only `AB`), so they
are embedded with faithful consumption, fuelled by the text length (each
step consumes at least one character, so `length s` fuel never runs out).
-/

/-- Scan of `TICKER_RE_DOLLAR.findall`: `\$([A-Z]{1,5})\b`. -/
def dollarScan : Str → List Str
  | [] => []
  | c :: rest =>
    if c = '$' then
      let run := rest.takeWhile isUpperAZ
      if 1 ≤ run.length && run.length ≤ 5 && bAfterB (rest.drop run.length)
      then run :: dollarScan rest
      else dollarScan rest
    else dollarScan rest

/-- Scan of the standalone pattern `\b([A-Z]{2,5})\b`.  `prevW` records
whether the character before the current suffix is a word character
(`false` at the start of the text), which decides the leading `\b`. -/
def saScan (prevW : Bool) : Str → List Str
  | [] => []
  | c :: rest =>
    if !prevW && isUpperAZ c then
      let run := c :: rest.takeWhile isUpperAZ
      if 2 ≤ run.length && run.length ≤ 5 && bAfterB (rest.drop (run.length - 1))
      then run :: saScan (isWordChar c) rest
      else saScan (isWordChar c) rest
    else saScan (isWordChar c) rest

/-- The keyword alternation of `TICKER_RE_CONTEXT` (matched against the
uppercased text; `re.IGNORECASE` makes the lowercase pattern match it). -/
def CTX_KEYWORDS : List String :=
  ["STOCK", "TICKER", "SHARE", "CALL", "PUT", "OPTION", "EARNING", "PRICE", "TARGET", "BUY", "SELL", "HOLD"]

/-- Match `(?:keyword)s?\b` at the head of `suf`; returns the number of
consumed characters.  No keyword is a proper leading segment of another, so
at most one alternative can match; `s?` is greedy and backtracking from a
consumed `S` cannot succeed (the `\b` would sit between two letters). -/
def kwMatch (suf : Str) : Option Nat :=
  CTX_KEYWORDS.findSome? (fun k =>
    if startsSeg k.toList suf then
      match suf.drop k.toList.length with
      | [] => some k.toList.length
      | 'S' :: rest' => if bAfterB rest' then some (k.toList.length + 1) else none
      | c :: _ => if isWordChar c then none else some k.toList.length
    else none)

/-- Scan of `TICKER_RE_CONTEXT.findall`:
`\b([A-Z]{2,5})\s+(?:stock|ticker|share|call|put|option|earning|price|target|buy|sell|hold)s?\b`
(IGNORECASE).  The capture must be a whole maximal uppercase run (a shorter
greedy backtrack is followed by a letter where `\s+` must match), of length
2..5, at a word boundary, followed by at least one whitespace character and
then the keyword part.  On success the scan resumes after the consumed
keyword (whose last character is a word character). -/
def ctxScanF : Nat → Bool → Str → List Str
  | 0, _, _ => []
  | _ + 1, _, [] => []
  | fuel + 1, prevW, c :: rest =>
    if !prevW && isUpperAZ c then
      let run := c :: rest.takeWhile isUpperAZ
      let afterRun := rest.drop (run.length - 1)
      let ws := afterRun.takeWhile isSpaceChar
      if 2 ≤ run.length && run.length ≤ 5 && 1 ≤ ws.length then
        match kwMatch (afterRun.drop ws.length) with
        | some k => run :: ctxScanF fuel true ((afterRun.drop ws.length).drop k)
        | none => ctxScanF fuel (isWordChar c) rest
      else ctxScanF fuel (isWordChar c) rest
    else ctxScanF fuel (isWordChar c) rest

/-- The verb alternation of `TICKER_RE_MENTIONS`. -/
def MENTION_VERBS : List String :=
  ["BUYING", "SELLING", "HOLDING", "BOUGHT", "SOLD", "TRADING"]

/-- Match one of the mention verbs at the head of `suf`; returns its length.
No verb is a leading segment of another, so the alternation is
deterministic. -/
def verbMatch (suf : Str) : Option Nat :=
  MENTION_VERBS.findSome? (fun v =>
    if startsSeg v.toList suf then some v.toList.length else none)

/-- Scan of `TICKER_RE_MENTIONS.findall`:
`\b(?:buying|selling|holding|bought|sold|trading)\s+([A-Z]{2,5})\b`
(IGNORECASE).  The capture is the maximal uppercase run after the
whitespace, which must have length 2..5 and a word boundary after it.  On
success the scan resumes after the captured run. -/
def mentionScanF : Nat → Bool → Str → List Str
  | 0, _, _ => []
  | _ + 1, _, [] => []
  | fuel + 1, prevW, c :: rest =>
    if !prevW then
      match verbMatch (c :: rest) with
      | some vlen =>
        let afterV := (c :: rest).drop vlen
        let ws := afterV.takeWhile isSpaceChar
        let afterWs := afterV.drop ws.length
        let run := afterWs.takeWhile isUpperAZ
        if 1 ≤ ws.length && 2 ≤ run.length && run.length ≤ 5 && bAfterB (afterWs.drop run.length)
        then run :: mentionScanF fuel true (afterWs.drop run.length)
        else mentionScanF fuel (isWordChar c) rest
      | none => mentionScanF fuel (isWordChar c) rest
    else mentionScanF fuel (isWordChar c) rest

/-- Strategy 2 contribution: context matches with the denylist filter
(`validated_context`). -/
def ctxPart (u : Str) : List Str :=
  (ctxScanF u.length false u).filter (fun t => !memCW t)

/-- Strategy 3 contribution: action-verb matches with the denylist filter
(`validated_mentions`). -/
def mentionPart (u : Str) : List Str :=
  (mentionScanF u.length false u).filter (fun t => !memCW t)

/-- Strategy 4 contribution: standalone tokens, accepted permissively
(length ≥ 2, not denylisted) when the whole text has financial context,
strictly (length ≥ 4, not denylisted, not in `english_words`) otherwise. -/
def standalonePart (u : Str) : List Str :=
  let potential := saScan false u
  if hasFinCtx u then
    potential.filter (fun t => !memCW t && decide (2 ≤ t.length))
  else
    potential.filter (fun t => !memCW t && decide (4 ≤ t.length) && !memEW t)

/-- `extract_tickers` of `app/collector.py`.  The Python function collects
the four strategies' results into a set; here the union is a deduplicated
list (set membership is what the claims consult; the Python iteration order
of a set is unspecified anyway). -/
def extract_tickers (text : Str) : List Str :=
  let u := pyUpper text
  (dollarScan u ++ ctxPart u ++ mentionPart u ++ standalonePart u).dedup

/-!
### Ingestion producers (`app/collector.py`)

A Reddit post, as the fields the core reads from the client object.
-/

/-- A source post (`post.id`, `post.subreddit`, `post.title`,
`post.selftext`, `post.created_utc`). -/
structure Post where
  id : Str
  subreddit : Str
  title : Str
  selftext : Str
  created_utc : ℚ
deriving DecidableEq

/-- The queue payload built by both producers (the dict serialized into the
`json` field of the `raw_posts` stream entry). -/
structure Payload where
  id : Str
  sub : Str
  t : ℚ
  tickers : Str
  title : Str
  selftext : Str
deriving DecidableEq

/-- `f"{post.title} {post.selftext}"`: the text both producers feed to the
extractor. -/
def postText (p : Post) : Str := p.title ++ ' ' :: p.selftext

/-- One pass of the broad producer (`main` in `app/collector.py`) over the
newest posts of one subreddit: extract tickers from title+selftext, skip
the post when the set is empty (`if not tickers: continue`), otherwise
enqueue a payload whose `tickers` field is `",".join(tickers)`. -/
def broadPass (sub : Str) (posts : List Post) : List Payload :=
  posts.filterMap (fun post =>
    let tickers := extract_tickers (postText post)
    if tickers.isEmpty then none
    else some { id := post.id, sub := sub, t := post.created_utc,
                tickers := joinComma tickers,
                title := post.title, selftext := post.selftext })

/-- `ticker in found_tickers` for one search result in
`collect_posts_for_ticker`. -/
def keepPost (ticker : Str) (p : Post) : Bool :=
  decide (ticker ∈ extract_tickers (postText p))

/-- The inner `async for post in subreddit.search(...)` loop of
`collect_posts_for_ticker`: confirmed posts are appended; after an append,
`if len(posts) >= limit: break` leaves only THIS loop. -/
def scanQueryPosts (tk : Str) (lim : Nat) : List Post → List Post → List Post
  | acc, [] => acc
  | acc, p :: ps =>
    if keepPost tk p then
      let acc' := acc ++ [p]
      if lim ≤ acc'.length then acc' else scanQueryPosts tk lim acc' ps
    else scanQueryPosts tk lim acc ps

/-- The `for query in search_queries` loop of one subreddit.  A failed
query (`except ...: continue`) contributes nothing; note that the loop has
NO limit check between queries, faithful to the source.  A query raising
after some results were processed behaves like a query that returned just
that prefix, so `Except.ok` with an arbitrary post list covers those
behaviours too. -/
def scanQueries (tk : Str) (lim : Nat) : List Post → List (Except Unit (List Post)) → List Post
  | acc, [] => acc
  | acc, Except.error _ :: qs => scanQueries tk lim acc qs
  | acc, Except.ok ps :: qs => scanQueries tk lim (scanQueryPosts tk lim acc ps) qs

/-- The `for sub in subs` loop: a failed subreddit is skipped; after one
subreddit's query loop, `if len(posts) >= limit: break` leaves the loop. -/
def scanSubs (tk : Str) (lim : Nat) : List Post → List (Except Unit (List (Except Unit (List Post)))) → List Post
  | acc, [] => acc
  | acc, Except.error _ :: rs => scanSubs tk lim acc rs
  | acc, Except.ok qs :: rs =>
    let acc' := scanQueries tk lim acc qs
    if lim ≤ acc'.length then acc' else scanSubs tk lim acc' rs

/-- `collect_posts_for_ticker(ticker, limit)` of `app/collector.py`, over an
oracle giving each subreddit's (possibly failing) query results. -/
def collect_posts_for_ticker (tk : Str) (lim : Nat)
    (results : List (Except Unit (List (Except Unit (List Post))))) : List Post :=
  scanSubs tk lim [] results

/-- `collect_ticker_data` of `app/api.py`: enqueue one payload per
collected post, with the `tickers` field set to just the requested ticker
(`"tickers": ticker`). -/
def collect_ticker_data (tk : Str) (lim : Nat)
    (results : List (Except Unit (List (Except Unit (List Post))))) : List Payload :=
  (collect_posts_for_ticker tk lim results).map (fun p =>
    { id := p.id, sub := p.subreddit, t := p.created_utc,
      tickers := tk, title := p.title, selftext := p.selftext })

/-!
### The sentiment consumer (`app/tasks.py`)
-/

/-- `positive_words` of the `classify` fallback path. -/
def POSITIVE_WORDS : List String :=
  ["good", "great", "excellent", "buy", "bull", "up", "gain", "profit", "win"]

/-- `negative_words` of the `classify` fallback path. -/
def NEGATIVE_WORDS : List String :=
  ["bad", "terrible", "sell", "bear", "down", "loss", "lose", "crash"]

/-- `sum(1 for word in ws if word in s)`. -/
def countIn (ws : List String) (s : Str) : Nat :=
  (ws.filter (fun w => occursIn w.toList s)).length

/-- `classify` of `app/tasks.py`.  `loaded` models whether `load_model`
produced a model (it catches its own errors and returns `(None, None)` on
failure, so it never raises).  `call` is the FinBERT tokenizer+forward
call: `Except.ok (neg, neu, pos)` are the softmax outputs
(`probs[0], probs[1], probs[2]`), `Except.error` any exception on that
path, which the enclosing `try` maps to `(0.0, 0.33, 0.33)`.  The
no-model word-count fallback cannot raise. -/
def classify (text : Str) (loaded : Bool) (call : Except Unit (ℚ × ℚ × ℚ)) : ℚ × ℚ × ℚ :=
  if loaded then
    match call with
    | Except.ok (neg, _, pos) => (pos - neg, pos, neg)
    | Except.error _ => (0, 33/100, 33/100)
  else
    let tl := pyLower text
    let posCount := countIn POSITIVE_WORDS tl
    let negCount := countIn NEGATIVE_WORDS tl
    if negCount < posCount then (1/2, 7/10, 2/10)
    else if posCount < negCount then (-(1/2), 2/10, 7/10)
    else (0, 4/10, 4/10)

/-- One row of the `INSERT INTO sentiment_events` statement. -/
structure InsertRow where
  reddit_id : Str
  ticker : Str
  model : Str
  score : ℚ
  pos_prob : ℚ
  neg_prob : ℚ
  created_ts : ℚ
deriving DecidableEq

/-- The observable outcome of one `consume_batch` run: how often the
classifier ran, which tickers had an insert attempted (in order), which
inserts succeeded, and whether the entry was acked. -/
structure RunOutcome where
  classifierCalls : Nat
  attempted : List Str
  inserts : List InsertRow
  acked : Bool
deriving DecidableEq

/-- `f"{payload['title']}  {payload['selftext']}"` (two spaces, as in the
source). -/
def consumeText (p : Payload) : Str := p.title ++ "  ".toList ++ p.selftext

/-- The row inserted for one ticker. -/
def mkRow (p : Payload) (c : ℚ × ℚ × ℚ) (tk : Str) : InsertRow :=
  { reddit_id := p.id, ticker := tk, model := "finbert".toList,
    score := c.1, pos_prob := c.2.1, neg_prob := c.2.2, created_ts := p.t }

/-- `consume_batch` of `app/tasks.py`.  `readResp` models the
`xreadgroup`+JSON-decode step: `Except.error` is any exception before the
per-ticker loop (caught by the top-level `except`, so the run ends with no
ack), `Except.ok none` the empty poll (plain `return`), `Except.ok (some
(msg_id, payload))` one delivered entry.  `dbOk tk` models whether the
`run(INSERT ...)` for ticker `tk` succeeds; a failing insert is caught by
the inner `except`, logged, and the loop continues, so every ticker of
`payload["tickers"].split(",")` is attempted regardless.  `ackOk` models
whether the final `xack` call itself succeeds (its exception would also be
caught at top level, leaving the entry unacked). -/
def consume_batch (readResp : Except Unit (Option (Str × Payload))) (loaded : Bool)
    (call : Except Unit (ℚ × ℚ × ℚ)) (dbOk : Str → Bool) (ackOk : Bool) : RunOutcome :=
  match readResp with
  | Except.error _ => ⟨0, [], [], false⟩
  | Except.ok none => ⟨0, [], [], false⟩
  | Except.ok (some (_, p)) =>
    let c := classify (consumeText p) loaded call
    let tks := splitComma p.tickers
    ⟨1, tks, (tks.filter dbOk).map (mkRow p c), ackOk⟩

/-!
### The completion waiter (`app/api.py`)
-/

/-- `has_recent_data`: the store query either returns a row count
(`Except.ok`) or raises; the `except` branch logs and returns `False`.
The success branch returns `count > 0`. -/
def has_recent_data (res : Except Unit Nat) : Bool :=
  match res with
  | Except.ok count => decide (0 < count)
  | Except.error _ => false

/-- How the `wait_for_processing` polling loop exits. -/
inductive WaitExit where
  | found (elapsed : Nat)
  | timeout
deriving DecidableEq

/-- The polling loop of `wait_for_processing`: `polls k` is the outcome of
the store check in the iteration starting `k` seconds after `start_time`;
each iteration either returns (fresh data seen) or sleeps one second, so
the loop runs at most `max_wait` iterations. -/
def waitExitAux (polls : Nat → Except Unit Nat) : Nat → Nat → WaitExit
  | 0, _ => WaitExit.timeout
  | fuel + 1, k =>
    if has_recent_data (polls k) then WaitExit.found k else waitExitAux polls fuel (k + 1)

/-- The exit of `wait_for_processing(ticker, max_wait)`. -/
def waitExit (polls : Nat → Except Unit Nat) (max_wait : Nat) : WaitExit :=
  waitExitAux polls max_wait 0

/-- The VALUE `wait_for_processing` returns to its caller: the success
branch is a bare `return` and the timeout path falls off the end of the
function, so both produce Python `None` — never a boolean. -/
def wait_for_processing_ret (polls : Nat → Except Unit Nat) (max_wait : Nat) : Option Bool :=
  match waitExit polls max_wait with
  | WaitExit.found _ => none
  | WaitExit.timeout => none

/-!
### Helper lemmas: characters and uppercasing
-/

theorem upChar_of_upper {c : Char} (h : isUpperAZ c = true) : upChar c = c := by
  unfold isUpperAZ at h
  simp only [Bool.and_eq_true, decide_eq_true_eq] at h
  unfold upChar
  rw [if_neg]
  simp only [Bool.and_eq_true, decide_eq_true_eq, not_and]
  omega

theorem not_upper_of_not_word {c : Char} (h : isWordChar c = false) : isUpperAZ c = false := by
  unfold isWordChar at h
  simp only [Bool.or_eq_false_iff] at h
  exact h.1.1.1

theorem upChar_of_not_word {c : Char} (h : isWordChar c = false) : upChar c = c := by
  unfold isWordChar isLowerAZ at h
  simp only [Bool.or_eq_false_iff, Bool.and_eq_false_iff, decide_eq_false_iff_not] at h
  unfold upChar
  rw [if_neg]
  simp only [Bool.and_eq_true, decide_eq_true_eq, not_and]
  rcases h.1.1.2 with h' | h' <;> omega

theorem word_upChar_of_not_word {c : Char} (h : isWordChar c = false) :
    isWordChar (upChar c) = false := by rw [upChar_of_not_word h]; exact h

theorem pyUpper_append (a b : Str) : pyUpper (a ++ b) = pyUpper a ++ pyUpper b :=
  List.map_append upChar a b

theorem pyUpper_of_upper {T : Str} (h : ∀ c ∈ T, isUpperAZ c = true) : pyUpper T = T := by
  induction T with
  | nil => rfl
  | cons c T ih =>
    simp only [pyUpper, List.map_cons] at *
    rw [upChar_of_upper (h c (List.mem_cons_self c T)), ih (fun d hd => h d (List.mem_cons_of_mem c hd))]

/-!
### Helper lemmas: lists
-/

theorem takeWhile_all_append (p : Char → Bool) (T r : Str) (hT : ∀ c ∈ T, p c = true)
    (hr : ∀ c, r.head? = some c → p c = false) : (T ++ r).takeWhile p = T := by
  induction T with
  | nil =>
    cases r with
    | nil => rfl
    | cons c r' => simp [List.takeWhile_cons, hr c rfl]
  | cons a T ih =>
    simp only [List.cons_append, List.takeWhile_cons, hT a (List.mem_cons_self a T), if_true]
    rw [ih (fun d hd => hT d (List.mem_cons_of_mem a hd))]

theorem takeWhile_append_drop (p : Char → Bool) (l : Str) :
    l.takeWhile p ++ l.drop (l.takeWhile p).length = l := by
  induction l with
  | nil => rfl
  | cons a l ih =>
    by_cases h : p a = true
    · simp [List.takeWhile_cons, h, ih]
    · simp [List.takeWhile_cons, Bool.of_not_eq_true h]

/-- `bAfterB r` transfers along maps that fix non-word characters. -/
theorem bAfterB_pyUpper {r : Str} (h : bAfterB r = true) : bAfterB (pyUpper r) = true := by
  cases r with
  | nil => rfl
  | cons c r' =>
    simp only [bAfterB, Bool.not_eq_true'] at h
    simp only [pyUpper, List.map_cons, bAfterB, Bool.not_eq_true']
    exact word_upChar_of_not_word h

/-- The head of a text with a true `bAfterB` cannot satisfy `isUpperAZ`. -/
theorem head_not_upper_of_bAfterB {r : Str} (h : bAfterB r = true) :
    ∀ c, r.head? = some c → isUpperAZ c = false := by
  intro c hc
  cases r with
  | nil => simp at hc
  | cons d r' =>
    simp only [List.head?_cons, Option.some.injEq] at hc
    subst hc
    simp only [bAfterB, Bool.not_eq_true'] at h
    exact not_upper_of_not_word h

/-!
### Dollar-strategy completeness: every sigil-marked token in the text is
found by `dollarScan`.
-/

theorem dollarScan_complete (l T r : Str) (h1 : 1 ≤ T.length) (h5 : T.length ≤ 5)
    (hup : ∀ c ∈ T, isUpperAZ c = true) (hb : bAfterB r = true) :
    T ∈ dollarScan (l ++ '$' :: (T ++ r)) := by
  induction l with
  | nil =>
    simp only [List.nil_append, dollarScan, if_pos rfl]
    rw [takeWhile_all_append isUpperAZ T r hup (head_not_upper_of_bAfterB hb), List.drop_left]
    have hcond : (decide (1 ≤ T.length) && decide (T.length ≤ 5) && bAfterB r) = true := by
      simp only [Bool.and_eq_true, decide_eq_true_eq]
      exact ⟨⟨h1, h5⟩, hb⟩
    rw [if_pos hcond]
    exact List.mem_cons_self T _
  | cons c l ih =>
    by_cases hc : c = '$'
    · simp only [List.cons_append, dollarScan, if_pos hc]
      split
      · exact List.mem_cons_of_mem _ ih
      · exact ih
    · simp only [List.cons_append, dollarScan, if_neg hc]
      exact ih

/-!
### Standalone-strategy characterization
-/

/-- The left word boundary seen by `saScan` with flag `flag` at the start of
its argument: if no text was consumed (`l = []`) the flag must be `false`
(start of text), otherwise the last consumed character is not a word
character. -/
def leftB (l : Str) (flag : Bool) : Prop :=
  match l.getLast? with
  | none => flag = false
  | some c => isWordChar c = false

theorem leftB_nil {flag : Bool} (h : leftB [] flag) : flag = false := h

theorem leftB_cons {c : Char} {l : Str} {flag : Bool} (h : leftB (c :: l) flag) :
    leftB l (isWordChar c) := by
  cases l with
  | nil => exact h
  | cons a l' => exact h

theorem leftB_cons_intro {c : Char} {l : Str} (flag : Bool) (h : leftB l (isWordChar c)) :
    leftB (c :: l) flag := by
  cases l with
  | nil => exact h
  | cons a l' => exact h

/-- `t` occurs in `u` as a bare token of 2–5 uppercase letters: a maximal
uppercase run bounded on each side by the text edge or a non-word
character (exactly a match of `\b([A-Z]{2,5})\b`). -/
def IsBareToken (t u : Str) : Prop :=
  ∃ l r, u = l ++ t ++ r ∧ (∀ c ∈ t, isUpperAZ c = true) ∧ 2 ≤ t.length ∧ t.length ≤ 5 ∧
    leftB l false ∧ bAfterB r = true

theorem saScan_complete (T r : Str) (h2 : 2 ≤ T.length) (h5 : T.length ≤ 5)
    (hup : ∀ c ∈ T, isUpperAZ c = true) (hb : bAfterB r = true) :
    ∀ (l : Str) (flag : Bool), leftB l flag → T ∈ saScan flag (l ++ T ++ r) := by
  intro l
  induction l with
  | nil =>
    intro flag hl
    have hf : flag = false := leftB_nil hl
    subst hf
    obtain ⟨c, T', rfl⟩ : ∃ c T', T = c :: T' := by
      cases T with
      | nil => simp at h2
      | cons c T' => exact ⟨c, T', rfl⟩
    simp only [List.nil_append, List.cons_append, saScan, List.append_eq]
    have hguard : (!false && isUpperAZ c) = true := by
      simp [hup c (List.mem_cons_self c T')]
    rw [if_pos hguard]
    have htw : (T' ++ r).takeWhile isUpperAZ = T' :=
      takeWhile_all_append isUpperAZ T' r (fun d hd => hup d (List.mem_cons_of_mem c hd))
        (head_not_upper_of_bAfterB hb)
    simp only [htw]
    have hlen : (c :: T').length - 1 = T'.length := by simp
    have hcond : (decide (2 ≤ (c :: T').length) && decide ((c :: T').length ≤ 5) &&
        bAfterB ((T' ++ r).drop ((c :: T').length - 1))) = true := by
      rw [hlen, List.drop_left]
      simp only [Bool.and_eq_true, decide_eq_true_eq]
      exact ⟨⟨h2, h5⟩, hb⟩
    rw [if_pos hcond]
    exact List.mem_cons_self _ _
  | cons c l ih =>
    intro flag hl
    have hl' : leftB l (isWordChar c) := leftB_cons hl
    have hmem := ih (isWordChar c) hl'
    simp only [List.cons_append, saScan]
    split
    · split
      · exact List.mem_cons_of_mem _ hmem
      · exact hmem
    · exact hmem

theorem saScan_sound (u : Str) : ∀ (flag : Bool) (t : Str), t ∈ saScan flag u →
    ∃ l r, u = l ++ t ++ r ∧ (∀ c ∈ t, isUpperAZ c = true) ∧ 2 ≤ t.length ∧
      t.length ≤ 5 ∧ leftB l flag ∧ bAfterB r = true := by
  induction u with
  | nil => intro flag t h; simp [saScan] at h
  | cons c rest ih =>
    intro flag t h
    simp only [saScan] at h
    by_cases hguard : (!flag && isUpperAZ c) = true
    · rw [if_pos hguard] at h
      simp only [Bool.and_eq_true, Bool.not_eq_true'] at hguard
      by_cases hcond : (decide (2 ≤ (c :: rest.takeWhile isUpperAZ).length) &&
          decide ((c :: rest.takeWhile isUpperAZ).length ≤ 5) &&
          bAfterB (rest.drop ((c :: rest.takeWhile isUpperAZ).length - 1))) = true
      · rw [if_pos hcond] at h
        simp only [Bool.and_eq_true, decide_eq_true_eq] at hcond
        rcases List.mem_cons.mp h with rfl | hrec
        · refine ⟨[], rest.drop ((c :: rest.takeWhile isUpperAZ).length - 1), ?_, ?_, hcond.1.1, hcond.1.2, hguard.1, hcond.2⟩
          · have hlen : (c :: rest.takeWhile isUpperAZ).length - 1 = (rest.takeWhile isUpperAZ).length := by simp
            rw [hlen]
            simp only [List.nil_append, List.cons_append, List.cons.injEq, true_and]
            exact (takeWhile_append_drop isUpperAZ rest).symm
          · intro d hd
            rcases List.mem_cons.mp hd with rfl | hd'
            · exact hguard.2
            · exact List.mem_takeWhile_imp hd'
        · obtain ⟨l', r', heq, hupt, h2t, h5t, hleft, hbr⟩ := ih (isWordChar c) t hrec
          exact ⟨c :: l', r', by simp [heq], hupt, h2t, h5t,
            leftB_cons_intro flag hleft, hbr⟩
      · rw [if_neg hcond] at h
        obtain ⟨l', r', heq, hupt, h2t, h5t, hleft, hbr⟩ := ih (isWordChar c) t h
        exact ⟨c :: l', r', by simp [heq], hupt, h2t, h5t,
          leftB_cons_intro flag hleft, hbr⟩
    · rw [if_neg hguard] at h
      obtain ⟨l', r', heq, hupt, h2t, h5t, hleft, hbr⟩ := ih (isWordChar c) t h
      exact ⟨c :: l', r', by simp [heq], hupt, h2t, h5t,
        leftB_cons_intro flag hleft, hbr⟩

/-- Membership in the raw standalone scan is exactly bare-token occurrence. -/
theorem saScan_mem_iff (u t : Str) : t ∈ saScan false u ↔ IsBareToken t u := by
  constructor
  · intro h
    obtain ⟨l, r, heq, hupt, h2, h5, hleft, hbr⟩ := saScan_sound u false t h
    exact ⟨l, r, heq, hupt, h2, h5, hleft, hbr⟩
  · rintro ⟨l, r, rfl, hupt, h2, h5, hleft, hbr⟩
    exact saScan_complete t r h2 h5 hupt hbr l false hleft

/-!
### Substring-test lemmas
-/

theorem startsSeg_self_append (w r : Str) : startsSeg w (w ++ r) = true := by
  induction w with
  | nil => rfl
  | cons a w ih => simp [startsSeg, ih]

theorem occursIn_of_startsSeg {w s : Str} (h : startsSeg w s = true) : occursIn w s = true := by
  cases s with
  | nil => exact h
  | cons c tail => simp [occursIn, h]

theorem occursIn_complete (l w r : Str) : occursIn w (l ++ (w ++ r)) = true := by
  induction l with
  | nil => exact occursIn_of_startsSeg (startsSeg_self_append w r)
  | cons c l' ih => simp [occursIn, ih]

/-!
### Claims C1, C10 and C4 about `extract_tickers`
-/

/-- Claim C1: for every input text and every sequence `T` of 1–5 uppercase
letters, if the text contains the sigil-prefixed token `$T` (the `$`
followed by exactly `T`, with a word boundary after it), then `T` is in the
set returned by `extract_tickers`.  No denylist hypothesis appears: the
marked form is never denylist-filtered. -/
theorem extract_marked_form_unfiltered (text l T r : Str)
    (htext : text = l ++ '$' :: (T ++ r)) (h1 : 1 ≤ T.length) (h5 : T.length ≤ 5)
    (hup : ∀ c ∈ T, isUpperAZ c = true) (hb : bAfterB r = true) :
    T ∈ extract_tickers text := by
  subst htext
  have hu : pyUpper (l ++ '$' :: (T ++ r)) = pyUpper l ++ '$' :: (T ++ pyUpper r) := by
    rw [pyUpper_append]
    simp only [pyUpper, List.map_cons, List.map_append]
    rw [show upChar '$' = '$' from by decide]
    rw [show List.map upChar T = T from pyUpper_of_upper hup]
  unfold extract_tickers
  rw [hu]
  exact List.mem_dedup.mpr (List.mem_append_left _ (List.mem_append_left _
    (List.mem_append_left _
      (dollarScan_complete (pyUpper l) T (pyUpper r) h1 h5 hup (bAfterB_pyUpper hb)))))

/-- Witness for C1 at a concrete input whose marked token is denylisted:
`CASH` is in `COMMON_WORDS`, yet `$CASH` is extracted. -/
theorem extract_marked_form_unfiltered_witness :
    memCW "CASH".toList = true ∧ "CASH".toList ∈ extract_tickers "$CASH is low".toList :=
  ⟨by decide,
    extract_marked_form_unfiltered "$CASH is low".toList [] "CASH".toList " is low".toList
      (by decide) (by decide) (by decide) (by decide) (by decide)⟩

/-- Claim C10: the finance-context test is substring containment on the
uppercased whole text, not token matching.  Whenever a context word occurs
anywhere inside the uppercased text — also as a proper part of a larger
word, e.g. `UP` inside `SUPER` — the text counts as financial context and
the permissive length-≥2 standalone acceptance applies. -/
theorem context_substring_permissive (text : Str) (w : String) (hw : w ∈ CONTEXT_WORDS)
    (l r : Str) (hocc : pyUpper text = l ++ (w.toList ++ r)) :
    hasFinCtx (pyUpper text) = true ∧
      ∀ t, t ∈ standalonePart (pyUpper text) ↔
        (t ∈ saScan false (pyUpper text) ∧ memCW t = false ∧ 2 ≤ t.length) := by
  have hctx : hasFinCtx (pyUpper text) = true := by
    unfold hasFinCtx
    rw [List.any_eq_true]
    exact ⟨w, hw, by rw [hocc]; exact occursIn_complete l w.toList r⟩
  refine ⟨hctx, ?_⟩
  intro t
  unfold standalonePart
  rw [if_pos hctx]
  simp only [List.mem_filter, Bool.and_eq_true, decide_eq_true_eq, Bool.not_eq_true']

/-- Witness for C10: `"SUPER NVDA"` has no finance token, but `UP` occurs
inside `SUPER`, so the permissive rule applies. -/
theorem context_substring_permissive_witness :
    hasFinCtx (pyUpper "SUPER NVDA".toList) = true ∧
      ∀ t, t ∈ standalonePart (pyUpper "SUPER NVDA".toList) ↔
        (t ∈ saScan false (pyUpper "SUPER NVDA".toList) ∧ memCW t = false ∧ 2 ≤ t.length) :=
  context_substring_permissive "SUPER NVDA".toList "UP" (by decide) "S".toList
    "ER NVDA".toList (by decide)

/-- Claim C4: the standalone strategy considers exactly the bare 2–5 letter
uppercase tokens of the (uppercased) text; with finance context it accepts
the non-denylisted ones, without context only those of length ≥ 4 that are
neither denylisted nor in the supplemental English-word list; and
`extract_tickers "this that with what"` is empty. -/
theorem standalone_strategy_exact :
    (∀ (text t : Str), t ∈ standalonePart (pyUpper text) ↔
      (IsBareToken t (pyUpper text) ∧
        (if hasFinCtx (pyUpper text) = true then memCW t = false
         else memCW t = false ∧ 4 ≤ t.length ∧ memEW t = false)))
    ∧ extract_tickers "this that with what".toList = [] := by
  constructor
  · intro text t
    unfold standalonePart
    by_cases hctx : hasFinCtx (pyUpper text) = true
    · rw [if_pos hctx, if_pos hctx]
      simp only [List.mem_filter, Bool.and_eq_true, decide_eq_true_eq, Bool.not_eq_true',
        saScan_mem_iff]
      constructor
      · rintro ⟨hbt, hcw, _⟩
        exact ⟨hbt, hcw⟩
      · rintro ⟨hbt, hcw⟩
        obtain ⟨l, r, heq, hup, h2, h5, hlb, hba⟩ := hbt
        exact ⟨⟨l, r, heq, hup, h2, h5, hlb, hba⟩, hcw, h2⟩
    · rw [if_neg hctx, if_neg hctx]
      simp only [List.mem_filter, Bool.and_eq_true, decide_eq_true_eq, Bool.not_eq_true',
        saScan_mem_iff]
      tauto
  · decide

/-!
### Claims C5, C2, C3 about `classify` and `consume_batch`
-/

/-- Counterexample to claim C5 as stated: when the FinBERT call raises,
`classify` returns `(0, 0.33, 0.33)`, which is NOT the claimed
`(0, 1/3, 1/3)` — `0.33 ≠ ⅓`. -/
theorem classify_fallback_not_one_third :
    classify "x".toList true (Except.error ()) ≠ ((0 : ℚ), 1/3, 1/3) := by
  have hval : classify "x".toList true (Except.error ()) = ((0 : ℚ), 33/100, 33/100) := rfl
  rw [hval]
  intro h
  have h2 : (33/100 : ℚ) = 1/3 := congrArg (fun x => x.2.1) h
  norm_num at h2

/-- Amended claim C5: whenever the model call raises, `classify` catches
the failure and returns the neutral fallback `(0, 0.33, 0.33)` (the
source's literal values) instead of propagating the error, for every input
text. -/
theorem classify_fallback_neutral (text : Str) :
    classify text true (Except.error ()) = ((0 : ℚ), 33/100, 33/100) := rfl

/-- Projecting the ticker out of the row built for it is the identity. -/
theorem map_ticker_mkRow (p : Payload) (c : ℚ × ℚ × ℚ) : ∀ l : List Str,
    List.map ((fun row => row.ticker) ∘ mkRow p c) l = l
  | [] => rfl
  | a :: l => by
    rw [List.map_cons, map_ticker_mkRow p c l]
    rfl

/-- Claim C2: one consumer run on a delivered CandidateEvent with `n`
distinct tickers invokes the classifier once on the title+body text, writes
exactly `n` rows — one per ticker, all with the classifier's triple — and
acks the entry (store writes and the ack succeeding). -/
theorem consume_batch_rows_per_ticker (mid : Str) (p : Payload) (loaded : Bool)
    (call : Except Unit (ℚ × ℚ × ℚ)) (n : Nat)
    (hn : (splitComma p.tickers).length = n) (_hnd : (splitComma p.tickers).Nodup) :
    (consume_batch (Except.ok (some (mid, p))) loaded call (fun _ => true) true).classifierCalls = 1 ∧
    (consume_batch (Except.ok (some (mid, p))) loaded call (fun _ => true) true).inserts.length = n ∧
    (consume_batch (Except.ok (some (mid, p))) loaded call (fun _ => true) true).inserts.map
      (fun row => row.ticker) = splitComma p.tickers ∧
    (∀ row ∈ (consume_batch (Except.ok (some (mid, p))) loaded call (fun _ => true) true).inserts,
      (row.score, row.pos_prob, row.neg_prob) = classify (consumeText p) loaded call) ∧
    (consume_batch (Except.ok (some (mid, p))) loaded call (fun _ => true) true).acked = true := by
  refine ⟨rfl, ?_, ?_, ?_, rfl⟩
  · simp [consume_batch, List.filter_true, hn]
  · simp only [consume_batch, List.filter_true, List.map_map]
    exact map_ticker_mkRow _ _ _
  · intro row hrow
    simp only [consume_batch, List.filter_true, List.mem_map] at hrow
    obtain ⟨tk, _, rfl⟩ := hrow
    rfl

/-- Witness for C2: a payload mentioning `TSLA` and `GME` yields two rows,
one per ticker, both acked and both with the classifier triple. -/
theorem consume_batch_rows_per_ticker_witness :
    (consume_batch (Except.ok (some ("m1".toList,
      ⟨"p1".toList, "wsb".toList, 0, "TSLA,GME".toList, "t".toList, "b".toList⟩)))
      true (Except.ok (1/10, 2/10, 7/10)) (fun _ => true) true).inserts.length = 2 ∧
    (consume_batch (Except.ok (some ("m1".toList,
      ⟨"p1".toList, "wsb".toList, 0, "TSLA,GME".toList, "t".toList, "b".toList⟩)))
      true (Except.ok (1/10, 2/10, 7/10)) (fun _ => true) true).acked = true := by
  have h := consume_batch_rows_per_ticker "m1".toList
    ⟨"p1".toList, "wsb".toList, 0, "TSLA,GME".toList, "t".toList, "b".toList⟩
    true (Except.ok (1/10, 2/10, 7/10)) 2 (by decide) (by decide)
  exact ⟨h.2.1, h.2.2.2.2⟩

/-- Claim C3: in a run that delivered an entry, every ticker's insert is
attempted no matter which individual store writes fail (`dbOk`), the
successfully written rows are exactly those of the non-failing tickers, and
the entry is acked regardless; whereas a top-level fault (an exception
before the loop, or a failing ack call) ends the run unacked, leaving the
entry claimed. -/
theorem consume_batch_partial_write_ack (mid : Str) (p : Payload) (loaded : Bool)
    (call : Except Unit (ℚ × ℚ × ℚ)) (dbOk : Str → Bool) (ackOk : Bool) :
    ((consume_batch (Except.ok (some (mid, p))) loaded call dbOk true).attempted =
        splitComma p.tickers ∧
      (consume_batch (Except.ok (some (mid, p))) loaded call dbOk true).inserts.map
        (fun row => row.ticker) = (splitComma p.tickers).filter dbOk ∧
      (consume_batch (Except.ok (some (mid, p))) loaded call dbOk true).acked = true) ∧
    (consume_batch (Except.error ()) loaded call dbOk ackOk).acked = false ∧
    (consume_batch (Except.ok (some (mid, p))) loaded call dbOk false).acked = false := by
  refine ⟨⟨rfl, ?_, rfl⟩, rfl, rfl⟩
  simp only [consume_batch, List.map_map]
  exact map_ticker_mkRow _ _ _

/-!
### Claim C6 about the completion waiter
-/

theorem waitExitAux_timeout (polls : Nat → Except Unit Nat) :
    ∀ (fuel start : Nat), (∀ j, start ≤ j → j < start + fuel → has_recent_data (polls j) = false) →
      waitExitAux polls fuel start = WaitExit.timeout := by
  intro fuel
  induction fuel with
  | zero => intro start _; rfl
  | succ fuel ih =>
    intro start h
    have h0 : has_recent_data (polls start) = false := h start le_rfl (by omega)
    simp only [waitExitAux, h0, Bool.false_eq_true, if_false]
    exact ih (start + 1) (fun j hj1 hj2 => h j (by omega) (by omega))

theorem waitExitAux_found (polls : Nat → Except Unit Nat) :
    ∀ (fuel start k : Nat), start ≤ k → k < start + fuel →
      has_recent_data (polls k) = true →
      (∀ j, start ≤ j → j < k → has_recent_data (polls j) = false) →
      waitExitAux polls fuel start = WaitExit.found k := by
  intro fuel
  induction fuel with
  | zero => intro start k h1 h2; omega
  | succ fuel ih =>
    intro start k h1 h2 hk hprev
    by_cases hsk : k = start
    · subst hsk
      simp [waitExitAux, hk]
    · have h0 : has_recent_data (polls start) = false := hprev start le_rfl (by omega)
      simp only [waitExitAux, h0, Bool.false_eq_true, if_false]
      exact ih (start + 1) k (by omega) (by omega) hk (fun j hj1 hj2 => hprev j (by omega) hj2)

/-- Counterexample to claim C6 as stated: even when a matching fresh row
exists on the very first poll, the waiter does not return `true` — its
Python return value is `None` on every path (a bare `return` on success,
fall-through on timeout), so it returns no boolean at all. -/
theorem waiter_returns_none_not_bool :
    waitExit (fun _ => Except.ok 1) 2 = WaitExit.found 0 ∧
      wait_for_processing_ret (fun _ => Except.ok 1) 2 ≠ some true := by
  exact ⟨rfl, by decide⟩

/-- Amended claim C6: the waiter always terminates and never raises — it
stops (with return value `None`) as soon as a poll sees a row for the
ticker scored within the recent window, and stops after `max_wait`
one-second polls have all failed; a failing store check is caught inside
`has_recent_data` and treated as "no data yet". -/
theorem waiter_bounded_polling (polls : Nat → Except Unit Nat) (max_wait k : Nat) :
    ((∀ j, j < max_wait → has_recent_data (polls j) = false) →
      waitExit polls max_wait = WaitExit.timeout) ∧
    (k < max_wait → has_recent_data (polls k) = true →
      (∀ j, j < k → has_recent_data (polls j) = false) →
      waitExit polls max_wait = WaitExit.found k) ∧
    wait_for_processing_ret polls max_wait = none ∧
    has_recent_data (Except.error ()) = false := by
  refine ⟨?_, ?_, ?_, rfl⟩
  · intro h
    exact waitExitAux_timeout polls max_wait 0 (fun j _ hj => h j (by omega))
  · intro h1 h2 h3
    exact waitExitAux_found polls max_wait 0 k (by omega) (by omega) h2
      (fun j _ hj => h3 j hj)
  · unfold wait_for_processing_ret
    cases waitExit polls max_wait <;> rfl

/-- Witness for C6 (amended): both exit modes at concrete poll oracles. -/
theorem waiter_bounded_polling_witness :
    waitExit (fun _ => Except.error ()) 2 = WaitExit.timeout ∧
      waitExit (fun j => if j = 1 then Except.ok 3 else Except.ok 0) 4 = WaitExit.found 1 := by
  constructor
  · exact (waiter_bounded_polling (fun _ => Except.error ()) 2 0).1 (fun j _ => rfl)
  · exact (waiter_bounded_polling (fun j => if j = 1 then Except.ok 3 else Except.ok 0) 4 1).2.1
      (by omega) (by decide) (by decide)

/-!
### Claim C7: the targeted producer only emits confirmed single-ticker events
-/

theorem scanQueryPosts_keep (tk : Str) (lim : Nat) :
    ∀ (ps acc : List Post), (∀ p ∈ acc, keepPost tk p = true) →
      ∀ p ∈ scanQueryPosts tk lim acc ps, keepPost tk p = true := by
  intro ps
  induction ps with
  | nil => intro acc hacc p hp; exact hacc p hp
  | cons q ps ih =>
    intro acc hacc p hp
    simp only [scanQueryPosts] at hp
    by_cases hk : keepPost tk q = true
    · rw [if_pos hk] at hp
      have hacc' : ∀ p ∈ acc ++ [q], keepPost tk p = true := by
        intro x hx
        rcases List.mem_append.mp hx with h | h
        · exact hacc x h
        · rw [List.mem_singleton.mp h]; exact hk
      by_cases hl : lim ≤ (acc ++ [q]).length
      · rw [if_pos hl] at hp
        exact hacc' p hp
      · rw [if_neg hl] at hp
        exact ih (acc ++ [q]) hacc' p hp
    · rw [if_neg hk] at hp
      exact ih acc hacc p hp

theorem scanQueries_keep (tk : Str) (lim : Nat) :
    ∀ (qs : List (Except Unit (List Post))) (acc : List Post),
      (∀ p ∈ acc, keepPost tk p = true) →
      ∀ p ∈ scanQueries tk lim acc qs, keepPost tk p = true := by
  intro qs
  induction qs with
  | nil => intro acc hacc p hp; exact hacc p hp
  | cons q qs ih =>
    intro acc hacc p hp
    cases q with
    | error e => exact ih acc hacc p hp
    | ok ps => exact ih _ (scanQueryPosts_keep tk lim ps acc hacc) p hp

theorem scanSubs_keep (tk : Str) (lim : Nat) :
    ∀ (rs : List (Except Unit (List (Except Unit (List Post))))) (acc : List Post),
      (∀ p ∈ acc, keepPost tk p = true) →
      ∀ p ∈ scanSubs tk lim acc rs, keepPost tk p = true := by
  intro rs
  induction rs with
  | nil => intro acc hacc p hp; exact hacc p hp
  | cons r rs ih =>
    intro acc hacc p hp
    cases r with
    | error e => exact ih acc hacc p hp
    | ok qs =>
      simp only [scanSubs] at hp
      have hacc' := scanQueries_keep tk lim qs acc hacc
      by_cases hl : lim ≤ (scanQueries tk lim acc qs).length
      · rw [if_pos hl] at hp
        exact hacc' p hp
      · rw [if_neg hl] at hp
        exact ih _ hacc' p hp

/-- Claim C7: every payload the targeted on-demand path appends was
re-confirmed by the extractor (the requested ticker is extracted from the
post's own title+body) and carries exactly the single requested ticker in
its `tickers` field, not the full extracted set. -/
theorem targeted_producer_confirms_ticker (tk : Str) (lim : Nat)
    (results : List (Except Unit (List (Except Unit (List Post)))))
    (pl : Payload) (hpl : pl ∈ collect_ticker_data tk lim results) :
    pl.tickers = tk ∧ tk ∈ extract_tickers (pl.title ++ ' ' :: pl.selftext) := by
  obtain ⟨p, hp, rfl⟩ := List.mem_map.mp hpl
  have hkeep : keepPost tk p = true :=
    scanSubs_keep tk lim results [] (by intro x hx; simp at hx) p hp
  exact ⟨rfl, of_decide_eq_true hkeep⟩

/-- Witness for C7 at a concrete search-result oracle. -/
theorem targeted_producer_confirms_ticker_witness :
    (⟨"a".toList, "wsb".toList, 0, "NVDA".toList, "$NVDA".toList, []⟩ : Payload).tickers
        = "NVDA".toList ∧
      "NVDA".toList ∈ extract_tickers
        ((⟨"a".toList, "wsb".toList, 0, "NVDA".toList, "$NVDA".toList, []⟩ : Payload).title
          ++ ' ' ::
          (⟨"a".toList, "wsb".toList, 0, "NVDA".toList, "$NVDA".toList, []⟩ : Payload).selftext) :=
  targeted_producer_confirms_ticker "NVDA".toList 5
    [Except.ok [Except.ok [⟨"a".toList, "wsb".toList, "$NVDA".toList, [], 0⟩]]]
    ⟨"a".toList, "wsb".toList, 0, "NVDA".toList, "$NVDA".toList, []⟩ (by decide)

/-!
### Claim C8: the limit caps the targeted collection only up to the
remaining query variants
-/

theorem scanQueryPosts_le (tk : Str) (lim : Nat) :
    ∀ (ps acc : List Post), (scanQueryPosts tk lim acc ps).length ≤ max (acc.length + 1) lim := by
  intro ps
  induction ps with
  | nil => intro acc; simp only [scanQueryPosts]; omega
  | cons q ps ih =>
    intro acc
    simp only [scanQueryPosts]
    by_cases hk : keepPost tk q = true
    · rw [if_pos hk]
      by_cases hl : lim ≤ (acc ++ [q]).length
      · rw [if_pos hl]
        simp only [List.length_append, List.length_singleton]
        omega
      · rw [if_neg hl]
        have h := ih (acc ++ [q])
        simp only [List.length_append, List.length_singleton] at h hl
        omega
    · rw [if_neg hk]
      have h := ih acc
      omega

theorem scanQueryPosts_mono (tk : Str) (lim : Nat) :
    ∀ (ps acc : List Post), acc.length ≤ (scanQueryPosts tk lim acc ps).length := by
  intro ps
  induction ps with
  | nil => intro acc; simp [scanQueryPosts]
  | cons q ps ih =>
    intro acc
    simp only [scanQueryPosts]
    by_cases hk : keepPost tk q = true
    · rw [if_pos hk]
      by_cases hl : lim ≤ (acc ++ [q]).length
      · rw [if_pos hl]
        simp only [List.length_append, List.length_singleton]
        omega
      · rw [if_neg hl]
        have h := ih (acc ++ [q])
        simp only [List.length_append, List.length_singleton] at h
        omega
    · rw [if_neg hk]
      exact ih acc

theorem scanQueries_le_of_ge (tk : Str) (lim : Nat) :
    ∀ (qs : List (Except Unit (List Post))) (acc : List Post), lim ≤ acc.length →
      (scanQueries tk lim acc qs).length ≤ acc.length + qs.length := by
  intro qs
  induction qs with
  | nil => intro acc _; simp [scanQueries]
  | cons q qs ih =>
    intro acc hge
    cases q with
    | error e =>
      have h := ih acc hge
      simp only [scanQueries, List.length_cons]
      omega
    | ok ps =>
      simp only [scanQueries, List.length_cons]
      have h1 := scanQueryPosts_le tk lim ps acc
      have h2 := scanQueryPosts_mono tk lim ps acc
      have h3 := ih (scanQueryPosts tk lim acc ps) (by omega)
      omega

theorem scanQueries_le_of_lt (tk : Str) (lim : Nat) :
    ∀ (qs : List (Except Unit (List Post))) (acc : List Post), acc.length < lim →
      (scanQueries tk lim acc qs).length ≤ lim - 1 + qs.length := by
  intro qs
  induction qs with
  | nil => intro acc hlt; simp only [scanQueries]; omega
  | cons q qs ih =>
    intro acc hlt
    cases q with
    | error e =>
      have h := ih acc hlt
      simp only [scanQueries, List.length_cons]
      omega
    | ok ps =>
      simp only [scanQueries, List.length_cons]
      have h1 := scanQueryPosts_le tk lim ps acc
      by_cases h2 : (scanQueryPosts tk lim acc ps).length < lim
      · have h3 := ih (scanQueryPosts tk lim acc ps) h2
        omega
      · have h3 := scanQueries_le_of_ge tk lim qs (scanQueryPosts tk lim acc ps) (by omega)
        omega

theorem scanSubs_le (tk : Str) (lim : Nat) :
    ∀ (rs : List (Except Unit (List (Except Unit (List Post))))) (acc : List Post),
      acc.length < lim →
      (∀ qs, Except.ok qs ∈ rs → qs.length ≤ 4) →
      (scanSubs tk lim acc rs).length ≤ lim + 3 := by
  intro rs
  induction rs with
  | nil => intro acc hlt _; simp only [scanSubs]; omega
  | cons r rs ih =>
    intro acc hlt hq
    cases r with
    | error e =>
      exact ih acc hlt (fun qs hqs => hq qs (List.mem_cons_of_mem _ hqs))
    | ok qs =>
      simp only [scanSubs]
      have hq4 : qs.length ≤ 4 := hq qs (List.mem_cons_self _ _)
      have h1 := scanQueries_le_of_lt tk lim qs acc hlt
      by_cases hl : lim ≤ (scanQueries tk lim acc qs).length
      · rw [if_pos hl]
        omega
      · rw [if_neg hl]
        exact ih _ (by omega) (fun qs' hqs' => hq qs' (List.mem_cons_of_mem _ hqs'))

/-- Counterexample to claim C8 as stated: with `limit = 1` and one
subreddit whose first two query variants each return one confirmed post,
the collector returns 2 posts — the per-post limit check only breaks the
current query's iteration, so the next query variant appends one more
before its own break. -/
theorem collect_limit_overshoot :
    1 < (collect_posts_for_ticker "NVDA".toList 1
      [Except.ok [Except.ok [⟨"a".toList, "wsb".toList, "$NVDA".toList, [], 0⟩],
                  Except.ok [⟨"b".toList, "wsb".toList, "$NVDA".toList, [], 0⟩]]]).length := by
  decide

/-- Amended claim C8: with `limit = L ≥ 1` and the source's four query
variants per subreddit, the targeted producer collects at most `L + 3`
posts (once the limit is reached, each of the up-to-3 remaining query
variants in that subreddit can contribute at most one extra post; the
subreddit loop then stops). -/
theorem collect_limit_bounded (tk : Str) (lim : Nat)
    (results : List (Except Unit (List (Except Unit (List Post)))))
    (hlim : 1 ≤ lim) (hq : ∀ qs, Except.ok qs ∈ results → qs.length ≤ 4) :
    (collect_posts_for_ticker tk lim results).length ≤ lim + 3 :=
  scanSubs_le tk lim results [] (by simp only [List.length_nil]; omega) hq

/-- Witness for C8 (amended) at the counterexample's oracle. -/
theorem collect_limit_bounded_witness :
    (collect_posts_for_ticker "NVDA".toList 1
      [Except.ok [Except.ok [⟨"a".toList, "wsb".toList, "$NVDA".toList, [], 0⟩],
                  Except.ok [⟨"b".toList, "wsb".toList, "$NVDA".toList, [], 0⟩]]]).length ≤ 1 + 3 :=
  collect_limit_bounded "NVDA".toList 1
    [Except.ok [Except.ok [⟨"a".toList, "wsb".toList, "$NVDA".toList, [], 0⟩],
                Except.ok [⟨"b".toList, "wsb".toList, "$NVDA".toList, [], 0⟩]]]
    (by omega)
    (by
      intro qs hqs
      rcases List.mem_singleton.mp hqs with h
      cases h
      decide)

/-!
### Claim C9: every enqueued CandidateEvent has a non-empty tickers field
-/

theorem dollarScan_sound (u : Str) : ∀ t ∈ dollarScan u, t ≠ [] ∧ ∀ c ∈ t, isUpperAZ c = true := by
  induction u with
  | nil => intro t ht; simp [dollarScan] at ht
  | cons c rest ih =>
    intro t ht
    simp only [dollarScan] at ht
    by_cases hc : c = '$'
    · rw [if_pos hc] at ht
      by_cases hcond : (decide (1 ≤ (rest.takeWhile isUpperAZ).length) &&
          decide ((rest.takeWhile isUpperAZ).length ≤ 5) &&
          bAfterB (rest.drop (rest.takeWhile isUpperAZ).length)) = true
      · rw [if_pos hcond] at ht
        rcases List.mem_cons.mp ht with rfl | hrec
        · simp only [Bool.and_eq_true, decide_eq_true_eq] at hcond
          refine ⟨?_, fun d hd => List.mem_takeWhile_imp hd⟩
          intro hnil
          rw [hnil] at hcond
          simp at hcond
        · exact ih t hrec
      · rw [if_neg hcond] at ht
        exact ih t ht
    · rw [if_neg hc] at ht
      exact ih t ht

theorem ctxScanF_sound : ∀ (fuel : Nat) (flag : Bool) (u : Str), ∀ t ∈ ctxScanF fuel flag u,
    t ≠ [] ∧ ∀ c ∈ t, isUpperAZ c = true := by
  intro fuel
  induction fuel with
  | zero => intro flag u t ht; simp [ctxScanF] at ht
  | succ fuel ih =>
    intro flag u t ht
    cases u with
    | nil => simp [ctxScanF] at ht
    | cons c rest =>
      simp only [ctxScanF] at ht
      by_cases hguard : (!flag && isUpperAZ c) = true
      · rw [if_pos hguard] at ht
        simp only [Bool.and_eq_true, Bool.not_eq_true'] at hguard
        by_cases hcond : (decide (2 ≤ (c :: rest.takeWhile isUpperAZ).length) &&
            decide ((c :: rest.takeWhile isUpperAZ).length ≤ 5) &&
            decide (1 ≤ ((rest.drop ((c :: rest.takeWhile isUpperAZ).length - 1)).takeWhile isSpaceChar).length)) = true
        · rw [if_pos hcond] at ht
          rcases hkw : kwMatch ((rest.drop ((c :: rest.takeWhile isUpperAZ).length - 1)).drop
              ((rest.drop ((c :: rest.takeWhile isUpperAZ).length - 1)).takeWhile isSpaceChar).length) with _ | k
          · rw [hkw] at ht
            exact ih _ _ t ht
          · rw [hkw] at ht
            rcases List.mem_cons.mp ht with rfl | hrec
            · refine ⟨by simp, fun d hd => ?_⟩
              rcases List.mem_cons.mp hd with rfl | hd'
              · exact hguard.2
              · exact List.mem_takeWhile_imp hd'
            · exact ih _ _ t hrec
        · rw [if_neg hcond] at ht
          exact ih _ _ t ht
      · rw [if_neg hguard] at ht
        exact ih _ _ t ht

theorem mentionScanF_sound : ∀ (fuel : Nat) (flag : Bool) (u : Str), ∀ t ∈ mentionScanF fuel flag u,
    t ≠ [] ∧ ∀ c ∈ t, isUpperAZ c = true := by
  intro fuel
  induction fuel with
  | zero => intro flag u t ht; simp [mentionScanF] at ht
  | succ fuel ih =>
    intro flag u t ht
    cases u with
    | nil => simp [mentionScanF] at ht
    | cons c rest =>
      simp only [mentionScanF] at ht
      split at ht
      · rcases hv : verbMatch (c :: rest) with _ | vlen <;> rw [hv] at ht
        · exact ih _ _ t ht
        · dsimp only at ht
          split at ht
          next hcond =>
            rcases List.mem_cons.mp ht with rfl | hrec
            · simp only [Bool.and_eq_true, decide_eq_true_eq] at hcond
              refine ⟨?_, fun d hd => List.mem_takeWhile_imp hd⟩
              intro hnil
              rw [hnil] at hcond
              simp at hcond
            · exact ih _ _ t hrec
          next => exact ih _ _ t ht
      · exact ih _ _ t ht

/-- Every token `extract_tickers` returns is a non-empty string of
uppercase letters. -/
theorem extract_tickers_sound (text : Str) : ∀ t ∈ extract_tickers text,
    t ≠ [] ∧ ∀ c ∈ t, isUpperAZ c = true := by
  intro t ht
  unfold extract_tickers at ht
  have ht' := List.mem_dedup.mp ht
  rcases List.mem_append.mp ht' with h3 | hsa
  · rcases List.mem_append.mp h3 with h2 | hmen
    · rcases List.mem_append.mp h2 with hdol | hctx
      · exact dollarScan_sound _ t hdol
      · exact ctxScanF_sound _ _ _ t (List.mem_filter.mp hctx).1
    · exact mentionScanF_sound _ _ _ t (List.mem_filter.mp hmen).1
  · have hsa' : t ∈ saScan false (pyUpper text) := by
      unfold standalonePart at hsa
      by_cases hctx : hasFinCtx (pyUpper text) = true
      · rw [if_pos hctx] at hsa
        exact (List.mem_filter.mp hsa).1
      · rw [if_neg hctx] at hsa
        exact (List.mem_filter.mp hsa).1
    obtain ⟨l, r, _, hup, h2, _, _, _⟩ := saScan_sound _ false t hsa'
    refine ⟨?_, hup⟩
    intro hnil
    rw [hnil] at h2
    simp at h2

/-- Extracted tokens never contain a comma (they are uppercase letters). -/
theorem extract_tickers_no_comma (text t : Str) (ht : t ∈ extract_tickers text) : ',' ∉ t := by
  intro hc
  have h := (extract_tickers_sound text t ht).2 ',' hc
  exact absurd h (by decide)

theorem splitCommaAux_no_comma : ∀ (t : Str) (cur : Str), ',' ∉ t →
    splitCommaAux cur t = [cur.reverse ++ t] := by
  intro t
  induction t with
  | nil => intro cur _; simp [splitCommaAux]
  | cons c t ih =>
    intro cur hc
    have hcc : ¬ c = ',' := fun h => hc (h ▸ List.mem_cons_self c t)
    simp only [splitCommaAux, if_neg hcc]
    rw [ih (c :: cur) (fun h => hc (List.mem_cons_of_mem c h))]
    simp

theorem splitCommaAux_split : ∀ (t : Str) (cur rest : Str), ',' ∉ t →
    splitCommaAux cur (t ++ ',' :: rest) = (cur.reverse ++ t) :: splitCommaAux [] rest := by
  intro t
  induction t with
  | nil => intro cur rest _; simp [splitCommaAux]
  | cons c t ih =>
    intro cur rest hc
    have hcc : ¬ c = ',' := fun h => hc (h ▸ List.mem_cons_self c t)
    simp only [List.cons_append, splitCommaAux, if_neg hcc, List.append_eq]
    rw [ih (c :: cur) rest (fun h => hc (List.mem_cons_of_mem c h))]
    simp

theorem splitComma_joinComma : ∀ (ts : List Str) (t : Str), (∀ x ∈ t :: ts, ',' ∉ x) →
    splitComma (joinComma (t :: ts)) = t :: ts := by
  intro ts
  induction ts with
  | nil =>
    intro t h
    unfold splitComma joinComma
    rw [splitCommaAux_no_comma t [] (h t (List.mem_cons_self t []))]
    simp
  | cons t2 ts ih =>
    intro t h
    have hjoin : joinComma (t :: t2 :: ts) = t ++ ',' :: joinComma (t2 :: ts) := rfl
    unfold splitComma
    rw [hjoin, splitCommaAux_split t [] (joinComma (t2 :: ts)) (h t (List.mem_cons_self t _))]
    have ih2 := ih t2 (fun x hx => h x (List.mem_cons_of_mem t hx))
    unfold splitComma at ih2
    rw [ih2]
    simp

/-- Claim C9: every CandidateEvent either producer appends to the queue has
a non-empty tickers field: the field string is non-empty and no comma part
of it is the empty ticker. -/
theorem enqueued_tickers_nonempty :
    (∀ (sub : Str) (posts : List Post) (pl : Payload), pl ∈ broadPass sub posts →
      pl.tickers ≠ [] ∧ [] ∉ splitComma pl.tickers) ∧
    (∀ (tk : Str) (lim : Nat) (results : List (Except Unit (List (Except Unit (List Post)))))
      (pl : Payload), pl ∈ collect_ticker_data tk lim results →
      pl.tickers ≠ [] ∧ [] ∉ splitComma pl.tickers) := by
  constructor
  · intro sub posts pl hpl
    obtain ⟨post, _, hf⟩ := List.mem_filterMap.mp hpl
    simp only [broadPass] at hf
    rcases hE : extract_tickers (postText post) with _ | ⟨t, ts⟩
    · rw [hE] at hf
      simp at hf
    · rw [hE] at hf
      simp only [List.isEmpty_cons, Bool.false_eq_true, if_false, Option.some.injEq] at hf
      subst hf
      have hsound : ∀ x ∈ t :: ts, x ≠ [] ∧ ∀ c ∈ x, isUpperAZ c = true := by
        intro x hx
        exact extract_tickers_sound (postText post) x (hE ▸ hx)
      have hnc : ∀ x ∈ t :: ts, ',' ∉ x := by
        intro x hx
        exact extract_tickers_no_comma (postText post) x (hE ▸ hx)
      have hsplit : splitComma (joinComma (t :: ts)) = t :: ts := splitComma_joinComma ts t hnc
      constructor
      · show joinComma (t :: ts) ≠ []
        cases ts with
        | nil => exact (hsound t (List.mem_cons_self t _)).1
        | cons t2 ts' => simp [joinComma]
      · show [] ∉ splitComma (joinComma (t :: ts))
        rw [hsplit]
        intro hmem
        exact (hsound [] hmem).1 rfl
  · intro tk lim results pl hpl
    obtain ⟨p, hp, rfl⟩ := List.mem_map.mp hpl
    have hkeep : keepPost tk p = true :=
      scanSubs_keep tk lim results [] (by intro x hx; simp at hx) p hp
    have htk := of_decide_eq_true hkeep
    have hsound := extract_tickers_sound (postText p) tk htk
    have hnc := extract_tickers_no_comma (postText p) tk htk
    constructor
    · exact hsound.1
    · show [] ∉ splitComma tk
      rw [show splitComma tk = [tk] from by
        unfold splitComma
        rw [splitCommaAux_no_comma tk [] hnc]
        simp]
      intro hmem
      exact hsound.1 (List.mem_singleton.mp hmem).symm

/-- Witness for C9: concrete instances of both producers. -/
theorem enqueued_tickers_nonempty_witness :
    ((⟨"i".toList, "wsb".toList, 0, "NVDA".toList, "$NVDA".toList, []⟩ : Payload).tickers ≠ [] ∧
      [] ∉ splitComma (⟨"i".toList, "wsb".toList, 0, "NVDA".toList, "$NVDA".toList, []⟩ : Payload).tickers) ∧
    ((⟨"j".toList, "wsb".toList, 0, "GME".toList, "$GME".toList, []⟩ : Payload).tickers ≠ [] ∧
      [] ∉ splitComma (⟨"j".toList, "wsb".toList, 0, "GME".toList, "$GME".toList, []⟩ : Payload).tickers) :=
  ⟨enqueued_tickers_nonempty.1 "wsb".toList [⟨"i".toList, "wsb".toList, "$NVDA".toList, [], 0⟩]
      ⟨"i".toList, "wsb".toList, 0, "NVDA".toList, "$NVDA".toList, []⟩ (by decide),
    enqueued_tickers_nonempty.2 "GME".toList 5
      [Except.ok [Except.ok [⟨"j".toList, "wsb".toList, "$GME".toList, [], 0⟩]]]
      ⟨"j".toList, "wsb".toList, 0, "GME".toList, "$GME".toList, []⟩ (by decide)⟩
